import Mathlib

/-!
Verification development for the pyperry query-relation and association
engines (`pyperry/relation.py`, `pyperry/association.py`,
`pyperry/processors/preload_associations.py`).

Python values that flow through relation clauses are modelled by the
inductive `PyVal`.  Python dicts are modelled as association lists in
insertion order (Python dict iteration order is implementation defined but
fixed; the association-list order plays that role), and callables are
modelled by the value they return when invoked with no arguments.
-/

namespace Pyperry

/-- Model of the Python values handled by the relation engine: `None`,
integers, strings, lists, dicts (association lists of key-value pairs,
in insertion order) and zero-argument callables (modelled by their
return value). -/
inductive PyVal where
  | none : PyVal
  | int (n : Int) : PyVal
  | str (s : String) : PyVal
  | list (xs : List PyVal) : PyVal
  | dict (entries : List (PyVal × PyVal)) : PyVal
  | func (ret : PyVal) : PyVal

mutual

/-- Structural equality on modelled Python values (Python `==` for the
hashable values used as dict keys and in clause comparisons). -/
def pyEq : PyVal → PyVal → Bool
  | .none, .none => true
  | .int a, .int b => a == b
  | .str a, .str b => a == b
  | .list a, .list b => pyEqList a b
  | .dict a, .dict b => pyEqDict a b
  | .func a, .func b => pyEq a b
  | _, _ => false

/-- `pyEq` lifted elementwise to lists. -/
def pyEqList : List PyVal → List PyVal → Bool
  | [], [] => true
  | a :: as_, b :: bs => pyEq a b && pyEqList as_ bs
  | _, _ => false

/-- `pyEq` lifted to dict entry lists. -/
def pyEqDict : List (PyVal × PyVal) → List (PyVal × PyVal) → Bool
  | [], [] => true
  | (ka, va) :: as_, (kb, vb) :: bs => pyEq ka kb && pyEq va vb && pyEqDict as_ bs
  | _, _ => false

end

namespace PyVal

/-- Python truthiness for the modelled values: `None`, `0`, empty strings,
empty lists and empty dicts are falsy; callables are truthy. -/
def truthy : PyVal → Bool
  | .none => false
  | .int n => n != 0
  | .str s => s != ""
  | .list xs => !xs.isEmpty
  | .dict es => !es.isEmpty
  | .func _ => true

/-- `isinstance(v, list)`. -/
def isList : PyVal → Bool
  | .list _ => true
  | _ => false

/-- `hasattr(v, 'iteritems')`: the value is a dict. -/
def isDict : PyVal → Bool
  | .dict _ => true
  | _ => false

/-- `callable(v)`. -/
def isCallable : PyVal → Bool
  | .func _ => true
  | _ => false

/-- Entries of a dict value (empty for non-dicts; the source only uses
this on dict values). -/
def entriesOf : PyVal → List (PyVal × PyVal)
  | .dict es => es
  | _ => []

end PyVal

/-- Dict lookup: value stored under key `k`, scanning entries in order. -/
def dictGet? (es : List (PyVal × PyVal)) (k : PyVal) : Option PyVal :=
  match es with
  | [] => Option.none
  | (k', v) :: rest => if pyEq k' k then some v else dictGet? rest k

/-- `k in d` for the dict model. -/
def dictHasKey (es : List (PyVal × PyVal)) (k : PyVal) : Bool :=
  (dictGet? es k).isSome

/-- `d[k] = v`: replace the value at an existing key in place (keeping its
position) or append a new entry, as Python dict assignment does. -/
def dictSet (es : List (PyVal × PyVal)) (k v : PyVal) : List (PyVal × PyVal) :=
  match es with
  | [] => [(k, v)]
  | (k', v') :: rest =>
      if pyEq k' k then (k, v) :: rest else (k', v') :: dictSet rest k v

/-- A value's dict entries never outweigh the value itself (termination
helper for the deep merge). -/
theorem entriesOf_sizeOf_le (v : PyVal) : sizeOf v.entriesOf ≤ sizeOf v := by
  cases v <;> simp [PyVal.entriesOf]

/-- `Relation._deep_merge` on dict entry lists: recursively merges `b`'s
entries into `a`; when a key already exists in `a` and the incoming value
is a dict, the dicts are merged instead of overwritten. -/
def deepMergeEntries (a : List (PyVal × PyVal)) :
    List (PyVal × PyVal) → List (PyVal × PyVal)
  | [] => a
  | (k, v) :: rest =>
      if dictHasKey a k && v.isDict then
        deepMergeEntries
          (dictSet a k
            (.dict (deepMergeEntries ((dictGet? a k).getD .none).entriesOf v.entriesOf)))
          rest
      else
        deepMergeEntries (dictSet a k v) rest
termination_by b => sizeOf b
decreasing_by
  all_goals
    (have h := entriesOf_sizeOf_le v
     simp <;> omega)

/-- `Relation._deep_merge` (both arguments are dicts at every call site). -/
def deepMerge (a b : PyVal) : PyVal :=
  .dict (deepMergeEntries a.entriesOf b.entriesOf)

mutual

/-- `Relation._get_includes_value`: turns one value passed to `includes`
into a nested dict; falsy values give an empty dict, dicts and lists merge
their members recursively, and any other (string) value becomes a leaf key
with an empty child dict. -/
def getIncludesValue (v : PyVal) : PyVal :=
  if v.truthy = false then .dict []
  else
    match v with
    | .dict kvs => givDict (.dict []) kvs
    | .list vs => givList (.dict []) vs
    | .none => .dict [(.none, .dict [])]
    | .int n => .dict [(.int n, .dict [])]
    | .str s => .dict [(.str s, .dict [])]
    | .func f => .dict [(.func f, .dict [])]

/-- The dict branch of `_get_includes_value`: left fold of
`_deep_merge(includes, {k: _get_includes_value(v)})` over the entries. -/
def givDict (acc : PyVal) : List (PyVal × PyVal) → PyVal
  | [] => acc
  | (k, sub) :: rest =>
      givDict (deepMerge acc (.dict [(k, getIncludesValue sub)])) rest

/-- The list branch of `_get_includes_value`: left fold of
`_deep_merge(includes, _get_includes_value(v))` over the elements. -/
def givList (acc : PyVal) : List PyVal → PyVal
  | [] => acc
  | v :: rest => givList (deepMerge acc (getIncludesValue v)) rest

end

mutual

/-- `Relation._eval_lambdas`: lists are mapped recursively, callables are
invoked once (their result is not evaluated again), all else is returned
unchanged. -/
def evalLambdas : PyVal → PyVal
  | .list xs => .list (evalLambdasList xs)
  | .func r => r
  | v => v

/-- `_eval_lambdas` mapped over a list. -/
def evalLambdasList : List PyVal → List PyVal
  | [] => []
  | v :: rest => evalLambdas v :: evalLambdasList rest

end

/-- The clause-name → value map held in `Relation.params`: the four
singular query methods (`limit`, `offset`, `from`, `sql`) start as `None`,
the seven plural query methods plus `modifiers` start as empty lists. -/
structure Params where
  limit : PyVal := .none
  offset : PyVal := .none
  from_ : PyVal := .none
  sql : PyVal := .none
  select : List PyVal := []
  group : List PyVal := []
  order : List PyVal := []
  joins : List PyVal := []
  includes : List PyVal := []
  where_ : List PyVal := []
  having : List PyVal := []
  modifiers : List PyVal := []

/-- `Relation.singular_query_methods`. -/
def singularQueryMethods : List String := ["limit", "offset", "from", "sql"]

/-- `Relation.plural_query_methods`. -/
def pluralQueryMethods : List String :=
  ["select", "group", "order", "joins", "includes", "where", "having"]

/-- Read a singular param by method name. -/
def Params.getSing (p : Params) : String → PyVal
  | "limit" => p.limit
  | "offset" => p.offset
  | "from" => p.from_
  | "sql" => p.sql
  | _ => .none

/-- Write a singular param by method name
(`self.params[key] = value` in `create_singular_method`). -/
def Params.setSing (p : Params) (k : String) (v : PyVal) : Params :=
  match k with
  | "limit" => { p with limit := v }
  | "offset" => { p with offset := v }
  | "from" => { p with from_ := v }
  | "sql" => { p with sql := v }
  | _ => p

/-- Read a plural param (or `modifiers`) by method name. -/
def Params.getPlur (p : Params) : String → List PyVal
  | "select" => p.select
  | "group" => p.group
  | "order" => p.order
  | "joins" => p.joins
  | "includes" => p.includes
  | "where" => p.where_
  | "having" => p.having
  | "modifiers" => p.modifiers
  | _ => []

/-- Append values to a plural param by method name
(`self.params[key] += list(value)` in `create_plural_method`). -/
def Params.appendPlur (p : Params) (k : String) (vs : List PyVal) : Params :=
  match k with
  | "select" => { p with select := p.select ++ vs }
  | "group" => { p with group := p.group ++ vs }
  | "order" => { p with order := p.order ++ vs }
  | "joins" => { p with joins := p.joins ++ vs }
  | "includes" => { p with includes := p.includes ++ vs }
  | "where" => { p with where_ := p.where_ ++ vs }
  | "having" => { p with having := p.having ++ vs }
  | "modifiers" => { p with modifiers := p.modifiers ++ vs }
  | _ => p

/-- `Relation.includes_value`: returns `None` when no values were passed
to `includes`; otherwise evaluates any top-level callables and combines
all values into a single nested dict via `_get_includes_value`. -/
def includesValue (p : Params) : PyVal :=
  match p.includes with
  | [] => .none
  | vs => getIncludesValue (.list (vs.map fun v => if v.isCallable then evalLambdas v else v))

/-- `Relation.query`: the materialized query dict, built from every
plural then singular query method except `includes` (truthy values only,
with deferred callables evaluated), and finally the combined includes
value when it is truthy (`modifiers` is never included). -/
def queryDict (p : Params) : List (String × PyVal) :=
  let step : List (String × PyVal) → String → List (String × PyVal) :=
    fun acc m =>
      let v : PyVal :=
        if m ∈ singularQueryMethods then p.getSing m else .list (p.getPlur m)
      if v.truthy then acc ++ [(m, evalLambdas v)] else acc
  let base := ((pluralQueryMethods ++ singularQueryMethods).filter
      (fun m => m ≠ "includes")).foldl step []
  let inc := includesValue p
  if inc.truthy then base ++ [("includes", inc)] else base

/-- Lookup in the query dict by clause name. -/
def queryGet? (q : List (String × PyVal)) (k : String) : Option PyVal :=
  match q with
  | [] => Option.none
  | (k', v) :: rest => if k' = k then some v else queryGet? rest k

/-- Python exceptions raised by the modelled code paths. -/
inductive PErr where
  | typeError : PErr
  | argumentError : PErr
  | associationNotFound : PErr
  | modelNotDefined : PErr
  | ambiguousClassName : PErr
deriving DecidableEq

/-- A `Relation` instance: the model type it is mapped to (`klass`), its
clause params, and the per-instance materialized record cache
(`_records`; the `_query` memo is not modelled because params never change
after construction in this embedding). -/
structure Rel where
  klass : String
  params : Params := {}
  records : Option (List PyVal) := Option.none

/-- `Relation(klass)`: a fresh relation for a model type. -/
def Rel.base (klass : String) : Rel := { klass := klass }

/-- `Relation.clone` / the copy constructor: same klass and params,
cache starts empty (`_records = None` in `__init__`). -/
def Rel.clone (r : Rel) : Rel := { klass := r.klass, params := r.params }

/-- A dynamically created singular query method
(`create_singular_method`): clone, then replace the param. -/
def singularCall (r : Rel) (k : String) (v : PyVal) : Rel :=
  let c := r.clone
  { c with params := c.params.setSing k v }

/-- A dynamically created plural query method (`create_plural_method`):
clone, then append the positional values and, when keyword arguments are
present, the keyword dict as one element. -/
def pluralCall (r : Rel) (k : String) (args : List PyVal)
    (kwargs : List (PyVal × PyVal) := []) : Rel :=
  let c := r.clone
  let allArgs := args ++ if kwargs.isEmpty then [] else [PyVal.dict kwargs]
  { c with params := c.params.appendPlur k allArgs }

/-- `Relation.modifiers`: clone, then reset the list when the value is
`None`, otherwise append it. -/
def modifiersCall (r : Rel) (v : PyVal) : Rel :=
  let c := r.clone
  match v with
  | .none => { c with params := { c.params with modifiers := [] } }
  | v => { c with params := { c.params with modifiers := c.params.modifiers ++ [v] } }

/-- One singular step of `Relation.merge`: `value = relation.params[m]`;
a truthy list is spread over the one-argument singular method (`TypeError`
unless it has exactly one element), any other truthy value is passed
directly, falsy values are skipped. -/
def mergeSingStep (k : String) (b : Params) (r : Rel) : Except PErr Rel :=
  if (b.getSing k).truthy then
    match b.getSing k with
    | .list [x] => .ok (singularCall r k x)
    | .list _ => .error .typeError
    | x => .ok (singularCall r k x)
  else .ok r

/-- One plural step of `Relation.merge`: a nonempty list is spread over
the plural method, which appends every element after the receiver's. -/
def mergePlurStep (k : String) (b : Params) (r : Rel) : Except PErr Rel :=
  if (b.getPlur k).isEmpty then .ok r else .ok (pluralCall r k (b.getPlur k))

/-- The `modifiers` step of `Relation.merge`: `modifiers(*value)` on the
one-argument `modifiers` method (`TypeError` when the list has more than
one element). -/
def mergeModStep (b : Params) (r : Rel) : Except PErr Rel :=
  match b.modifiers with
  | [] => .ok r
  | [x] => .ok (modifiersCall r x)
  | _ => .error .typeError

/-- `Relation.merge`: clone the receiver, then replay the argument
relation's params through one clause call per query method, iterating
`singular_query_methods + plural_query_methods + ['modifiers']` in order.
The argument's model type is never consulted. -/
def mergeRel (a b : Rel) : Except PErr Rel := do
  let r := a.clone
  let r ← mergeSingStep "limit" b.params r
  let r ← mergeSingStep "offset" b.params r
  let r ← mergeSingStep "from" b.params r
  let r ← mergeSingStep "sql" b.params r
  let r ← mergePlurStep "select" b.params r
  let r ← mergePlurStep "group" b.params r
  let r ← mergePlurStep "order" b.params r
  let r ← mergePlurStep "joins" b.params r
  let r ← mergePlurStep "includes" b.params r
  let r ← mergePlurStep "where" b.params r
  let r ← mergePlurStep "having" b.params r
  mergeModStep b.params r

/-- `Relation.aliases`. -/
def aliasTarget : String → Option String
  | "from_" => some "from"
  | "conditions" => some "where"
  | _ => Option.none

/-- The recognized finder-option keys
(`singular + plural + aliases.keys() + ['modifiers']`).  The source
iterates the *set* intersection of these with the options' keys, whose
order Python leaves unspecified; this embedding fixes the canonical list
order as its refinement of that arbitrary order. -/
def finderOptionKeys : List String :=
  singularQueryMethods ++ pluralQueryMethods ++ ["from_", "conditions", "modifiers"]

/-- One loop iteration of `Relation.apply_finder_options`: when the
options dict has the key, resolve the alias and, for a truthy value,
invoke the matching clause method with the value as its single
argument. -/
def applyOneOption (r : Rel) (m : String) (options : List (PyVal × PyVal)) : Rel :=
  match dictGet? options (.str m) with
  | Option.none => r
  | some value =>
      if value.truthy then
        if (aliasTarget m).getD m ∈ singularQueryMethods then
          singularCall r ((aliasTarget m).getD m) value
        else if (aliasTarget m).getD m = "modifiers" then modifiersCall r value
        else pluralCall r ((aliasTarget m).getD m) [value]
      else r

/-- `Relation.apply_finder_options`: clone the receiver, copy the options
dict, merge keyword arguments into the copy, and apply every recognized
key that is present. -/
def applyFinderOptions (r : Rel) (options : List (PyVal × PyVal))
    (kwargs : List (PyVal × PyVal) := []) : Rel :=
  let options := kwargs.foldl (fun acc kv => dictSet acc kv.1 kv.2) options
  finderOptionKeys.foldl (fun r m => applyOneOption r m options) r.clone

/-- `Relation.fetch_records` with the fetch collaborator made explicit and
an invocation counter threaded through: the first call on an instance
fetches and caches, later calls return the cached list. -/
def fetchRecords (fetch : List (String × PyVal) → List PyVal) (r : Rel)
    (count : Nat) : List PyVal × Rel × Nat :=
  match r.records with
  | some rs => (rs, r, count)
  | Option.none =>
      let rs := fetch (queryDict r.params)
      (rs, { r with records := some rs }, count + 1)

/-- `Relation.all`: apply the finder options (which clones the receiver)
and fetch the resulting relation's records.  The receiver itself is not
mutated and the fetched list is cached only on the discarded clone. -/
def allCall (fetch : List (String × PyVal) → List PyVal) (r : Rel)
    (options : List (PyVal × PyVal)) (count : Nat) : List PyVal × Nat :=
  let r' := applyFinderOptions r options
  let (rs, _, c') := fetchRecords fetch r' count
  (rs, c')

/-- `Relation.first`: `options.update({'limit': 1})` mutates the caller's
options dict in place (the mutated dict is returned as the second
component; when the argument is omitted, Python reuses one shared default
dict across calls, so that state is exactly this component threaded into
the next call), then delegates to `all` and returns the first record or
`None`. -/
def firstCall (fetch : List (String × PyVal) → List PyVal) (r : Rel)
    (options : List (PyVal × PyVal)) (count : Nat) :
    Option PyVal × List (PyVal × PyVal) × Nat :=
  let options := dictSet options (.str "limit") (.int 1)
  let (rs, c') := allCall fetch r options count
  (rs.head?, options, c')

/-! ### Association name resolution (`pyperry/association.py`, `pyperry/base.py`) -/

/-- Generic lookup in a string-keyed association list (`dict.get`). -/
def lookupStr {α : Type} : List (String × α) → String → Option α
  | [], _ => Option.none
  | (k, v) :: rest, k' => if k = k' then some v else lookupStr rest k'

/-- Overwrite-or-append in a string-keyed association list (`setattr` /
dict assignment keyed by a string). -/
def setStr {α : Type} : List (String × α) → String → α → List (String × α)
  | [], k, v => [(k, v)]
  | (k', v') :: rest, k, v =>
      if k' = k then (k, v) :: rest else (k', v') :: setStr rest k v

/-- A registered model class: its bare name and the module it lives in
(`cls.__name__` and `cls.__module__`). -/
structure MClass where
  name : String
  module : String
deriving DecidableEq

/-- The character class `[a-zA-z]` of the sanitizer's regex.  Because the
second range is `A-z` (lowercase z), it spans ASCII codes 65–122 and so
also contains `[`, `\`, `]`, `^`, `_` and the backtick. -/
def inAtoZRange (c : Char) : Bool := 65 ≤ c.toNat && c.toNat ≤ 122

/-- The regex word class `\w`: letters, digits and underscore. -/
def isWordChar (c : Char) : Bool := c.isAlpha || c.isDigit || c == '_'

/-- Scanner for `re.sub('[^a-zA-z]\\w*', '', string)`.  The Boolean state
is true while the scanner sits inside the `\w*` tail of a match (those
word characters are deleted); outside a match, a character inside the
`[a-zA-z]` range is kept and any other character starts a new match and
is deleted. -/
def sanitizeGo : Bool → List Char → List Char
  | _, [] => []
  | inRun, c :: rest =>
      if inRun && isWordChar c then sanitizeGo true rest
      else if inAtoZRange c then c :: sanitizeGo false rest
      else sanitizeGo true rest

/-- `Association._sanitize_type_attribute`. -/
def sanitizeTypeAttribute (s : String) : String := ⟨sanitizeGo false s.data⟩

/-- Split a character list at its last `'.'`: namespace part (when a dot
occurs) and final component. -/
def rsplitDotChars : List Char → Option (List Char) × List Char
  | [] => (Option.none, [])
  | c :: rest =>
      match rsplitDotChars rest with
      | (some ns, last) => (some (c :: ns), last)
      | (Option.none, last) =>
          if c = '.' then (some [], last) else (Option.none, c :: last)

/-- `str.rsplit('.', 1)`: optional namespace part before the last dot,
plus the final component. -/
def rsplitDot (s : String) : Option String × String :=
  match rsplitDotChars s.data with
  | (some ns, last) => (some ⟨ns⟩, ⟨last⟩)
  | (Option.none, last) => (Option.none, ⟨last⟩)

/-- Python `str.endswith`. -/
def endsWithStr (s suffix : String) : Bool :=
  List.isSuffixOf suffix.data s.data

/-- `Base.resolve_name`: all registered classes whose bare name matches
the final component, filtered by module suffix when a namespace part was
given.  The registry list models `defined_models` in registration
order. -/
def resolveName (registry : List MClass) (name : String) : List MClass :=
  let (ns?, className) := rsplitDot name
  let classes := registry.filter (fun k => k.name == className)
  match ns? with
  | some ns => classes.filter (fun k => endsWithStr k.module ns)
  | Option.none => classes

/-- `Association._get_resolved_class`: `ModelNotDefined` when no class
matches, `AmbiguousClassName` when more than one does. -/
def getResolvedClass (registry : List MClass) (s : String) : Except PErr MClass :=
  let cs := resolveName registry s
  match cs with
  | [] => .error .modelNotDefined
  | [c] => .ok c
  | _ => .error .ambiguousClassName

/-- The polymorphic branch of `Association.source_klass`: sanitize the
per-row type tag, join it with the optional namespace option, and resolve
the resulting string. -/
def sourceKlassPoly (registry : List MClass) (namespaceOpt : Option String)
    (polyType : String) : Except PErr MClass :=
  let sanitized := sanitizeTypeAttribute polyType
  let parts := ((match namespaceOpt with | some ns => [ns] | Option.none => []) ++
      [sanitized]).filter (fun a => a != "")
  getResolvedClass registry (String.intercalate "." parts)

/-- `HasManyThrough.source_association` lookup on the proxy's related
type: the source tries `defined_associations.get(self.id)` FIRST and only
falls back to `defined_associations.get(source_option)`, raising
`AssociationNotFound` when both lookups miss. -/
def sourceAssociationLookup {α : Type} (assocs : List (String × α))
    (selfId : String) (sourceOpt : Option String) : Except PErr α :=
  match lookupStr assocs selfId with
  | some a => .ok a
  | Option.none =>
      match sourceOpt.bind (lookupStr assocs) with
      | some a => .ok a
      | Option.none => .error .associationNotFound

/-- Specification-side counterpart of `source_association`, stated from
the spec's words for comparison with `sourceAssociationLookup`: the
effective source name is the `source` option when one is supplied,
otherwise the through-association's own name, and resolution fails with
`AssociationNotFound` when no association with that effective name
exists. -/
def sourceAssociationSpec {α : Type} (assocs : List (String × α))
    (selfId : String) (sourceOpt : Option String) : Except PErr α :=
  let effective := sourceOpt.getD selfId
  match lookupStr assocs effective with
  | some a => .ok a
  | Option.none => .error .associationNotFound

/-! ### Batch preloading (`pyperry/processors/preload_associations.py`)

Instances and raw records are modelled as attribute dicts; an
association descriptor carries the data `do_preload` and
`add_records_to_scope` consult.  Direct (non-through, non-polymorphic,
eager-loadable) associations are modelled: their `scope` builds a fresh
relation on the source class with one `where` condition and no fetch. -/

/-- A direct association descriptor as consumed by the preloader:
`type()`, `foreign_key`, `primary_key` and the source class name. -/
structure PAssoc where
  id : String
  kind : String
  foreignKey : String
  primaryKey : String
  klassName : String

/-- `Association.collection()`: true exactly for `has_many`. -/
def PAssoc.isCollection (a : PAssoc) : Bool := a.kind == "has_many"

/-- What `add_records_to_scope` caches on an instance: a relation
pre-populated with the matched records for collections, or the single
match (or `None`) otherwise. -/
inductive PCache where
  | collection (recs : List PyVal)
  | single (rec : Option PyVal)

/-- A hydrated model instance: its attributes and the per-instance
association cache written by the preloader. -/
structure PInst where
  attrs : List (PyVal × PyVal)
  cache : List (String × PCache) := []

/-- `getattr(record, name)` on a raw record modelled as a dict. -/
def recAttr (rec : PyVal) (name : String) : PyVal :=
  (dictGet? rec.entriesOf (.str name)).getD .none

/-- `getattr(instance, name)` for a data attribute. -/
def instAttr (o : PInst) (name : String) : PyVal :=
  (dictGet? o.attrs (.str name)).getD .none

/-- `association.scope(results)` for a direct association on a batch:
`BelongsTo` collects the batch's foreign-key values and filters the
source class by primary key; `Has` collects primary-key values and
filters by foreign key.  No fetch is performed — the scope is lazy. -/
def assocScope (a : PAssoc) (results : List PInst) : Rel :=
  if a.kind == "belongs_to" then
    pluralCall (Rel.base a.klassName) "where"
      [.dict [(.str a.primaryKey, .list (results.map (fun o => instAttr o a.foreignKey)))]]
  else
    pluralCall (Rel.base a.klassName) "where"
      [.dict [(.str a.foreignKey, .list (results.map (fun o => instAttr o a.primaryKey)))]]

/-- The record partition of `add_records_to_scope`: `belongs_to` matches
`record.primary_key == instance.foreign_key`, the has-kinds match
`record.foreign_key == instance.primary_key`. -/
def matchedRecords (a : PAssoc) (eager : List PyVal) (o : PInst) : List PyVal :=
  if a.kind == "belongs_to" then
    eager.filter (fun rec => pyEq (recAttr rec a.primaryKey) (instAttr o a.foreignKey))
  else
    eager.filter (fun rec => pyEq (recAttr rec a.foreignKey) (instAttr o a.primaryKey))

/-- `add_records_to_scope`: cache the matched subset on the instance
under the association's name (a collection scope, or the single match or
`None` for singular associations). -/
def addRecordsToScope (a : PAssoc) (eager : List PyVal) (o : PInst) : PInst :=
  let recs := matchedRecords a eager o
  let v := if a.isCollection then PCache.collection recs else PCache.single recs.head?
  { o with cache := setStr o.cache a.id v }

/-- `rel.klass.defined_associations.get(association_id)` for a key of the
includes tree (a non-string key can never match). -/
def resolveEntry (assocs : List (String × PAssoc)) : PyVal → Option PAssoc
  | .str s => lookupStr assocs s
  | _ => Option.none

/-- The loop body of `PreloadAssociations.do_preload` over the top-level
entries of the includes tree: resolve each name in
`defined_associations` (`AssociationNotFound` — modelled by the `true`
error flag — stops the pass), build the batched scope, add the nested
includes, execute it once via `all({'modifiers': mods})`, and attach the
matches to every instance in place before moving on. -/
def doPreload (fetch : List (String × PyVal) → List PyVal)
    (assocs : List (String × PAssoc)) (mods : PyVal)
    (entries : List (PyVal × PyVal)) (results : List PInst) (count : Nat) :
    Nat × List PInst × Bool :=
  match entries with
  | [] => (count, results, false)
  | (k, sub) :: rest =>
      match resolveEntry assocs k with
      | Option.none => (count, results, true)
      | some a =>
          let scope := pluralCall (assocScope a results) "includes" [sub]
          let (eager, count') := allCall fetch scope [(.str "modifiers", mods)] count
          doPreload fetch assocs mods rest
            (results.map (addRecordsToScope a eager)) count'

/-- `PreloadAssociations.__call__` after the inner stack returned the
batch: preloading runs only for read mode on a nonempty batch.  The
includes tree is the relation's computed `query()['includes']` (or `{}`)
and `mods` its `modifiers_value()`.  The Bool component is true when the
pass raised `AssociationNotFound` (the batch is then not returned to the
caller — the exception propagates). -/
def preloadCall (fetch : List (String × PyVal) → List PyVal)
    (assocs : List (String × PAssoc)) (mode : String) (mods : PyVal)
    (includes : List (PyVal × PyVal)) (results : List PInst) (count : Nat) :
    Nat × List PInst × Bool :=
  if mode == "read" && results.length > 0 then
    doPreload fetch assocs mods includes results count
  else
    (count, results, false)

/-! ### Aliasing model for clause-call immutability

The dynamically created clause methods mutate Python list objects in
place (`self.params[key] += list(value)`), so whether the receiver is
left unchanged depends on aliasing: `clone` routes through the copy
constructor, whose `_copy_params` allocates fresh lists.  This section
models the plural-param lists as cells in an explicit heap to make that
argument precise; singular params live inline because
`self.params[key] = value` rebinds a slot of the clone's own fresh
dict. -/

/-- Heap of Python list objects (addressed by index). -/
abbrev Heap := List (List PyVal)

/-- Read a list cell (`[]` as the out-of-range default; well-formed
relations only hold live addresses). -/
def heapGet (h : Heap) (a : Nat) : List PyVal := h.getD a []

/-- Overwrite a list cell in place. -/
def heapSet (h : Heap) (a : Nat) (cell : List PyVal) : Heap := h.set a cell

/-- A `Relation` with explicit aliasing: singular params inline, plural
params as heap addresses of list objects. -/
structure RelationH where
  sing : List (String × PyVal)
  plurAddrs : List (String × Nat)

/-- Every plural-param address of the relation is a live heap cell. -/
def wfH (h : Heap) (r : RelationH) : Prop :=
  ∀ ka ∈ r.plurAddrs, ka.2 < h.length

/-- `_copy_params` over the plural params: allocate a fresh cell holding
a copy of each list, in order. -/
def cloneAlloc : Heap → List (String × Nat) → Heap × List (String × Nat)
  | h, [] => (h, [])
  | h, (k, a) :: rest =>
      let cell := heapGet h a
      let (h', rest') := cloneAlloc (h ++ [cell]) rest
      (h', (k, h.length) :: rest')

/-- `Relation.clone` in the aliasing model: same singular params, fresh
copies of every plural list. -/
def cloneH (h : Heap) (r : RelationH) : Heap × RelationH :=
  let (h', ps) := cloneAlloc h r.plurAddrs
  (h', { sing := r.sing, plurAddrs := ps })

/-- `create_plural_method`'s method body: clone, then `+=` the arguments
(and the keyword dict, when any) onto the clone's list object. -/
def pluralCallH (h : Heap) (r : RelationH) (k : String) (args : List PyVal)
    (kwargs : List (PyVal × PyVal)) : Heap × RelationH :=
  let (h1, c) := cloneH h r
  match lookupStr c.plurAddrs k with
  | some a =>
      let allArgs := args ++ if kwargs.isEmpty then [] else [PyVal.dict kwargs]
      (heapSet h1 a (heapGet h1 a ++ allArgs), c)
  | Option.none => (h1, c)

/-- `create_singular_method`'s method body: clone, then rebind the
clone's dict slot for the key. -/
def singularCallH (h : Heap) (r : RelationH) (k : String) (v : PyVal) :
    Heap × RelationH :=
  let (h1, c) := cloneH h r
  (h1, { c with sing := setStr c.sing k v })

/-- The list object currently stored for a plural param. -/
def plurCellH (h : Heap) (r : RelationH) (name : String) : List PyVal :=
  match lookupStr r.plurAddrs name with
  | some a => heapGet h a
  | Option.none => []

/-- The observable `params` of a relation in the aliasing model. -/
def paramsOfH (h : Heap) (r : RelationH) : Params where
  limit := (lookupStr r.sing "limit").getD .none
  offset := (lookupStr r.sing "offset").getD .none
  from_ := (lookupStr r.sing "from").getD .none
  sql := (lookupStr r.sing "sql").getD .none
  select := plurCellH h r "select"
  group := plurCellH h r "group"
  order := plurCellH h r "order"
  joins := plurCellH h r "joins"
  includes := plurCellH h r "includes"
  where_ := plurCellH h r "where"
  having := plurCellH h r "having"
  modifiers := plurCellH h r "modifiers"

/-- `Relation.query` in the aliasing model. -/
def queryH (h : Heap) (r : RelationH) : List (String × PyVal) :=
  queryDict (paramsOfH h r)

/-! ### General lemmas -/

mutual

/-- `pyEq` is reflexive. -/
theorem pyEq_refl : (a : PyVal) → pyEq a a = true
  | .none => rfl
  | .int n => by simp [pyEq]
  | .str s => by simp [pyEq]
  | .list xs => by simp [pyEq, pyEqList_refl xs]
  | .dict es => by simp [pyEq, pyEqDict_refl es]
  | .func r => by simp [pyEq, pyEq_refl r]

/-- `pyEqList` is reflexive. -/
theorem pyEqList_refl : (xs : List PyVal) → pyEqList xs xs = true
  | [] => rfl
  | x :: rest => by simp [pyEqList, pyEq_refl x, pyEqList_refl rest]

/-- `pyEqDict` is reflexive. -/
theorem pyEqDict_refl : (es : List (PyVal × PyVal)) → pyEqDict es es = true
  | [] => rfl
  | (k, v) :: rest => by simp [pyEqDict, pyEq_refl k, pyEq_refl v, pyEqDict_refl rest]

end

/-- Setting a dict key makes lookups of that key find the new value. -/
theorem dictGet?_dictSet_self (d : List (PyVal × PyVal)) (k v : PyVal) :
    dictGet? (dictSet d k v) k = some v := by
  induction d with
  | nil => simp [dictSet, dictGet?, pyEq_refl]
  | cons kv rest ih =>
      obtain ⟨k', v'⟩ := kv
      by_cases h : pyEq k' k = true
      · simp [dictSet, dictGet?, h, pyEq_refl]
      · simp [dictSet, dictGet?, h, ih]

/-- A successful string-keyed lookup comes from an entry of the list. -/
theorem lookupStr_mem {α : Type} :
    ∀ {l : List (String × α)} {k : String} {v : α},
      lookupStr l k = some v → (k, v) ∈ l := by
  intro l
  induction l with
  | nil => intro k v h; simp [lookupStr] at h
  | cons kv rest ih =>
      intro k v h
      obtain ⟨k', v'⟩ := kv
      by_cases he : k' = k
      · subst he
        simp [lookupStr] at h
        simp [h]
      · simp [lookupStr, he] at h
        exact List.mem_cons_of_mem _ (ih h)

/-- `cloneAlloc` only appends fresh cells to the heap. -/
theorem cloneAlloc_heap_eq :
    ∀ (ps : List (String × Nat)) (h : Heap), ∃ t, (cloneAlloc h ps).1 = h ++ t
  | [], h => ⟨[], by simp [cloneAlloc]⟩
  | (k, a) :: rest, h => by
      obtain ⟨t, ht⟩ := cloneAlloc_heap_eq rest (h ++ [heapGet h a])
      refine ⟨[heapGet h a] ++ t, ?_⟩
      simp [cloneAlloc, ht]

/-- Every address allocated by `cloneAlloc` is beyond the old heap. -/
theorem cloneAlloc_addr_ge :
    ∀ (ps : List (String × Nat)) (h : Heap) (kv : String × Nat),
      kv ∈ (cloneAlloc h ps).2 → h.length ≤ kv.2
  | [], h, kv, hm => by simp [cloneAlloc] at hm
  | (k, a) :: rest, h, kv, hm => by
      simp only [cloneAlloc] at hm
      rcases List.mem_cons.mp hm with he | ht
      · subst he; exact Nat.le_refl _
      · have := cloneAlloc_addr_ge rest (h ++ [heapGet h a]) kv ht
        simp at this
        omega

/-- Reads below the old heap length are unaffected by appended cells. -/
theorem heapGet_append (h t : Heap) (a : Nat) (ha : a < h.length) :
    heapGet (h ++ t) a = heapGet h a := by
  simp [heapGet, List.getD, List.getElem?_append, ha]

/-- Reads at a different address are unaffected by a cell write. -/
theorem heapGet_set_ne (h : Heap) (a b : Nat) (c : List PyVal) (hne : a ≠ b) :
    heapGet (heapSet h a c) b = heapGet h b := by
  simp [heapGet, heapSet, List.getD, List.getElem?_set_ne hne]

/-- A plural clause call leaves every live cell of the old heap intact:
the write lands on the clone's freshly allocated copy. -/
theorem pluralCallH_heap_preserved (h : Heap) (r : RelationH) (k : String)
    (args : List PyVal) (kwargs : List (PyVal × PyVal)) (a : Nat)
    (ha : a < h.length) :
    heapGet ((pluralCallH h r k args kwargs).1) a = heapGet h a := by
  obtain ⟨t, ht⟩ := cloneAlloc_heap_eq r.plurAddrs h
  unfold pluralCallH cloneH
  cases hl : lookupStr (cloneAlloc h r.plurAddrs).2 k with
  | none => simp [hl, ht, heapGet_append _ _ _ ha]
  | some addr =>
      have hge := cloneAlloc_addr_ge r.plurAddrs h (k, addr) (lookupStr_mem hl)
      have hne : addr ≠ a := by omega
      simp only [hl, ht]
      rw [heapGet_set_ne _ _ _ _ hne, heapGet_append _ _ _ ha]

/-- A singular clause call leaves every live cell of the old heap
intact. -/
theorem singularCallH_heap_preserved (h : Heap) (r : RelationH) (k : String)
    (v : PyVal) (a : Nat) (ha : a < h.length) :
    heapGet ((singularCallH h r k v).1) a = heapGet h a := by
  obtain ⟨t, ht⟩ := cloneAlloc_heap_eq r.plurAddrs h
  unfold singularCallH cloneH
  simp [ht, heapGet_append _ _ _ ha]

/-- The observable params of a well-formed relation only depend on the
live portion of the heap. -/
theorem paramsOfH_congr (h h' : Heap) (r : RelationH) (wf : wfH h r)
    (hp : ∀ a, a < h.length → heapGet h' a = heapGet h a) :
    paramsOfH h' r = paramsOfH h r := by
  have hc : ∀ n, plurCellH h' r n = plurCellH h r n := by
    intro n
    unfold plurCellH
    cases hl : lookupStr r.plurAddrs n with
    | none => rfl
    | some a => exact hp a (wf (n, a) (lookupStr_mem hl))
  simp [paramsOfH, hc]

/-! ### Lemmas about params updates and merge steps -/

/-- Writing a singular param never touches the plural params. -/
theorem setSing_plural_fields (p : Params) (k : String) (v : PyVal) :
    (p.setSing k v).select = p.select ∧ (p.setSing k v).group = p.group ∧
    (p.setSing k v).order = p.order ∧ (p.setSing k v).joins = p.joins ∧
    (p.setSing k v).includes = p.includes ∧ (p.setSing k v).where_ = p.where_ ∧
    (p.setSing k v).having = p.having ∧ (p.setSing k v).modifiers = p.modifiers := by
  unfold Params.setSing
  split <;> exact ⟨rfl, rfl, rfl, rfl, rfl, rfl, rfl, rfl⟩

/-- Writing a singular param leaves the other singular params alone. -/
theorem setSing_limit_ne (p : Params) (k : String) (v : PyVal) (hk : k ≠ "limit") :
    (p.setSing k v).limit = p.limit := by
  unfold Params.setSing
  split <;> simp_all

/-- Appending to a plural param never touches the singular params. -/
theorem appendPlur_sing_fields (p : Params) (k : String) (vs : List PyVal) :
    (p.appendPlur k vs).limit = p.limit ∧ (p.appendPlur k vs).offset = p.offset ∧
    (p.appendPlur k vs).from_ = p.from_ ∧ (p.appendPlur k vs).sql = p.sql := by
  unfold Params.appendPlur
  split <;> exact ⟨rfl, rfl, rfl, rfl⟩

/-- Appending nothing is the identity. -/
theorem appendPlur_nil (p : Params) (k : String) : p.appendPlur k [] = p := by
  unfold Params.appendPlur
  split <;> simp

/-- `modifiers` only touches the `modifiers` param (and clears the record
cache via the clone). -/
theorem modifiersCall_fields (r : Rel) (v : PyVal) :
    (modifiersCall r v).params.limit = r.params.limit ∧
    (modifiersCall r v).params.offset = r.params.offset ∧
    (modifiersCall r v).params.from_ = r.params.from_ ∧
    (modifiersCall r v).params.sql = r.params.sql ∧
    (modifiersCall r v).params.select = r.params.select ∧
    (modifiersCall r v).params.group = r.params.group ∧
    (modifiersCall r v).params.order = r.params.order ∧
    (modifiersCall r v).params.joins = r.params.joins ∧
    (modifiersCall r v).params.includes = r.params.includes ∧
    (modifiersCall r v).params.where_ = r.params.where_ ∧
    (modifiersCall r v).params.having = r.params.having ∧
    (modifiersCall r v).klass = r.klass := by
  unfold modifiersCall Rel.clone
  cases v <;> exact ⟨rfl, rfl, rfl, rfl, rfl, rfl, rfl, rfl, rfl, rfl, rfl, rfl⟩

/-- Shape of one singular merge step: either the value is falsy and the
relation passes through unchanged, or a singular clause call is made (with
the single element when the value is a one-element list). -/
theorem mergeSingStep_cases (k : String) (bp : Params) (r s : Rel)
    (h : mergeSingStep k bp r = .ok s) :
    s = r ∨
    (∃ x, s = singularCall r k x ∧
      ((bp.getSing k).isList = false → x = bp.getSing k)) := by
  unfold mergeSingStep at h
  by_cases ht : (bp.getSing k).truthy = true
  · rw [ht] at h
    simp only [if_true] at h
    cases hv : bp.getSing k with
    | list xs =>
        rw [hv] at h
        match xs with
        | [] => rw [hv] at ht; simp [PyVal.truthy] at ht
        | [x] =>
            simp at h
            exact Or.inr ⟨x, h.symm, by simp [hv, PyVal.isList]⟩
        | x :: y :: rest => simp at h
    | none => rw [hv] at ht; simp [PyVal.truthy] at ht
    | int n => rw [hv] at h; simp at h; exact Or.inr ⟨_, h.symm, fun _ => rfl⟩
    | str a => rw [hv] at h; simp at h; exact Or.inr ⟨_, h.symm, fun _ => rfl⟩
    | dict es => rw [hv] at h; simp at h; exact Or.inr ⟨_, h.symm, fun _ => rfl⟩
    | func f => rw [hv] at h; simp at h; exact Or.inr ⟨_, h.symm, fun _ => rfl⟩
  · simp only [Bool.not_eq_true] at ht
    rw [ht] at h
    simp at h
    exact Or.inl h.symm

/-- A singular merge step never raises `ArgumentError` and keeps the
model type. -/
theorem mergeSingStep_err (k : String) (bp : Params) (r : Rel) (e : PErr)
    (h : mergeSingStep k bp r = .error e) : e = .typeError := by
  unfold mergeSingStep at h
  split at h <;> [skip; simp at h]
  split at h <;> simp_all

/-- One plural merge step appends the argument relation's values after
the receiver's, for its own key. -/
theorem mergePlurStep_params (k : String) (bp : Params) (r s : Rel)
    (h : mergePlurStep k bp r = .ok s) :
    s.params = r.params.appendPlur k (bp.getPlur k) ∧ s.klass = r.klass := by
  unfold mergePlurStep at h
  by_cases he : (bp.getPlur k).isEmpty
  · simp [he] at h
    subst h
    rw [List.isEmpty_iff] at he
    rw [he, appendPlur_nil]
    exact ⟨rfl, rfl⟩
  · simp [he] at h
    subst h
    simp [pluralCall, Rel.clone]

/-- A plural merge step never fails. -/
theorem mergePlurStep_err (k : String) (bp : Params) (r : Rel) (e : PErr)
    (h : mergePlurStep k bp r = .error e) : False := by
  unfold mergePlurStep at h
  split at h <;> simp at h

/-- The modifiers merge step leaves every other field and the model type
alone. -/
theorem mergeModStep_fields (bp : Params) (r s : Rel)
    (h : mergeModStep bp r = .ok s) :
    s.params.limit = r.params.limit ∧ s.params.offset = r.params.offset ∧
    s.params.from_ = r.params.from_ ∧ s.params.sql = r.params.sql ∧
    s.params.select = r.params.select ∧ s.params.group = r.params.group ∧
    s.params.order = r.params.order ∧ s.params.joins = r.params.joins ∧
    s.params.includes = r.params.includes ∧ s.params.where_ = r.params.where_ ∧
    s.params.having = r.params.having ∧ s.klass = r.klass := by
  unfold mergeModStep at h
  split at h
  · cases h
    exact ⟨rfl, rfl, rfl, rfl, rfl, rfl, rfl, rfl, rfl, rfl, rfl, rfl⟩
  · cases h
    exact modifiersCall_fields r _
  · simp at h

/-- The modifiers merge step can only fail with `TypeError`. -/
theorem mergeModStep_err (bp : Params) (r : Rel) (e : PErr)
    (h : mergeModStep bp r = .error e) : e = .typeError := by
  unfold mergeModStep at h
  split at h <;> simp_all

/-- Peeling one `Except` bind that succeeded. -/
theorem exceptBindOk {α β : Type} {x : Except PErr α} {f : α → Except PErr β}
    {b : β} (h : (x >>= f) = .ok b) : ∃ a, x = .ok a ∧ f a = .ok b := by
  cases x with
  | ok a => exact ⟨a, rfl, h⟩
  | error e => simp [Bind.bind, Except.bind] at h

/-! ### Lemmas about finder options, fetching and preloading -/

/-- The four possible outcomes of applying one finder option: no-op, or
a single clause-method call with the present value. -/
theorem applyOneOption_cases (r : Rel) (m : String) (o : List (PyVal × PyVal)) :
    applyOneOption r m o = r ∨
    (∃ v, applyOneOption r m o = singularCall r ((aliasTarget m).getD m) v) ∨
    (∃ v, applyOneOption r m o = modifiersCall r v) ∨
    (∃ v, applyOneOption r m o = pluralCall r ((aliasTarget m).getD m) [v]) := by
  unfold applyOneOption
  cases dictGet? o (.str m) with
  | none => exact Or.inl rfl
  | some v =>
      by_cases ht : v.truthy = true
      · by_cases hs : (aliasTarget m).getD m ∈ singularQueryMethods
        · simp only [ht, hs, if_true, ite_true]
          exact Or.inr (Or.inl ⟨v, by simp [hs]⟩)
        · by_cases hmo : (aliasTarget m).getD m = "modifiers"
          · simp only [ht, hs, hmo, if_true, ite_true]
            exact Or.inr (Or.inr (Or.inl ⟨v, by simp [hmo, singularQueryMethods]⟩))
          · exact Or.inr (Or.inr (Or.inr ⟨v, by simp [ht, hs, hmo]⟩))
      · exact Or.inl (by simp [ht])

/-- `modifiers` never touches the record cache beyond the clone. -/
theorem modifiersCall_records (r : Rel) (v : PyVal) :
    (modifiersCall r v).records = Option.none := by
  unfold modifiersCall Rel.clone
  cases v <;> rfl

/-- Applying one finder option keeps an empty record cache empty. -/
theorem applyOneOption_records (r : Rel) (m : String) (o : List (PyVal × PyVal))
    (h : r.records = Option.none) : (applyOneOption r m o).records = Option.none := by
  rcases applyOneOption_cases r m o with hc | ⟨v, hc⟩ | ⟨v, hc⟩ | ⟨v, hc⟩ <;> rw [hc]
  · exact h
  · rfl
  · exact modifiersCall_records r v
  · rfl

/-- The finder-option loop keeps an empty record cache empty. -/
theorem foldlApplyOne_records (o : List (PyVal × PyVal)) :
    ∀ (ms : List String) (r : Rel), r.records = Option.none →
      ((ms.foldl (fun r m => applyOneOption r m o) r).records = Option.none) := by
  intro ms
  induction ms with
  | nil => intro r h; exact h
  | cons m rest ih => intro r h; exact ih _ (applyOneOption_records r m o h)

/-- `apply_finder_options` always returns a cache-empty clone. -/
theorem applyFinderOptions_records (r : Rel) (opts kwargs : List (PyVal × PyVal)) :
    (applyFinderOptions r opts kwargs).records = Option.none := by
  unfold applyFinderOptions
  exact foldlApplyOne_records _ _ _ rfl

/-- When the cache is empty, `fetch_records` fetches once and caches. -/
theorem fetchRecords_none {fetch : List (String × PyVal) → List PyVal} {r : Rel}
    {count : Nat} (h : r.records = Option.none) :
    fetchRecords fetch r count =
      (fetch (queryDict r.params),
       { r with records := some (fetch (queryDict r.params)) }, count + 1) := by
  simp [fetchRecords, h]

/-- Every `all()` call performs exactly one fetch: the finder-option
clone starts cache-empty, so `fetch_records` always misses. -/
theorem allCall_count (fetch : List (String × PyVal) → List PyVal) (r : Rel)
    (opts : List (PyVal × PyVal)) (count : Nat) :
    (allCall fetch r opts count).2 = count + 1 := by
  simp [allCall, fetchRecords_none (applyFinderOptions_records r opts [])]

/-- Applying a finder option other than `limit` (directly or through an
alias) leaves the `limit` param alone. -/
theorem applyOneOption_limit_ne (r : Rel) (m : String) (o : List (PyVal × PyVal))
    (hm : (aliasTarget m).getD m ≠ "limit") :
    (applyOneOption r m o).params.limit = r.params.limit := by
  rcases applyOneOption_cases r m o with hc | ⟨v, hc⟩ | ⟨v, hc⟩ | ⟨v, hc⟩ <;> rw [hc]
  · exact setSing_limit_ne r.params _ v hm
  · exact (modifiersCall_fields r v).1
  · exact (appendPlur_sing_fields r.params _ _).1

/-- The finder-option loop never writes `limit` unless a `limit` key is
processed. -/
theorem foldlApplyOne_limit (o : List (PyVal × PyVal)) :
    ∀ (ms : List String) (r : Rel),
      (∀ m ∈ ms, (aliasTarget m).getD m ≠ "limit") →
      ((ms.foldl (fun r m => applyOneOption r m o) r).params.limit = r.params.limit) := by
  intro ms
  induction ms with
  | nil => intro r _; rfl
  | cons m rest ih =>
      intro r h
      rw [List.foldl_cons, ih _ (fun x hx => h x (List.mem_cons_of_mem _ hx)),
        applyOneOption_limit_ne r m o (h m (List.mem_cons_self _ _))]

/-- The preloader issues one fetch per resolvable top-level entry. -/
theorem doPreload_count (fetch : List (String × PyVal) → List PyVal)
    (assocs : List (String × PAssoc)) (mods : PyVal) :
    ∀ (entries : List (PyVal × PyVal)) (results : List PInst) (count : Nat),
      (∀ kv ∈ entries, (resolveEntry assocs kv.1).isSome) →
      (doPreload fetch assocs mods entries results count).1 = count + entries.length := by
  intro entries
  induction entries with
  | nil => intro results count _; simp [doPreload]
  | cons kv rest ih =>
      intro results count hres
      obtain ⟨k, sub⟩ := kv
      have h1 : (resolveEntry assocs k).isSome := hres (k, sub) (List.mem_cons_self _ _)
      cases ha : resolveEntry assocs k with
      | none => rw [ha] at h1; simp at h1
      | some a =>
          simp only [doPreload, ha]
          rw [ih _ _ (fun kv hkv => hres kv (List.mem_cons_of_mem _ hkv))]
          rw [allCall_count]
          simp [List.length_cons]
          omega

/-- When an unresolvable name follows a resolvable prefix, the pass stops
with the error flag set, and the instances keep exactly the caches the
prefix already populated. -/
theorem doPreload_error_prefix (fetch : List (String × PyVal) → List PyVal)
    (assocs : List (String × PAssoc)) (mods : PyVal) :
    ∀ (pre : List (PyVal × PyVal)) (badK sub : PyVal) (post : List (PyVal × PyVal))
      (results : List PInst) (count : Nat),
      (∀ kv ∈ pre, (resolveEntry assocs kv.1).isSome) →
      resolveEntry assocs badK = Option.none →
      doPreload fetch assocs mods (pre ++ (badK, sub) :: post) results count =
        ((doPreload fetch assocs mods pre results count).1,
         (doPreload fetch assocs mods pre results count).2.1, true) := by
  intro pre
  induction pre with
  | nil =>
      intro badK sub post results count _ hbad
      simp [doPreload, hbad]
  | cons kv rest ih =>
      intro badK sub post results count hres hbad
      obtain ⟨k, sub'⟩ := kv
      have h1 : (resolveEntry assocs k).isSome := hres (k, sub') (List.mem_cons_self _ _)
      cases ha : resolveEntry assocs k with
      | none => rw [ha] at h1; simp at h1
      | some a =>
          simp only [List.cons_append, doPreload, ha]
          exact ih badK sub post _ _ (fun kv hkv => hres kv (List.mem_cons_of_mem _ hkv)) hbad

/-! ### The merge chain preserves the receiver's model type and can only
raise `TypeError` -/

/-- A merge step that keeps the model type and raises at most
`TypeError`. -/
def StepOk (f : Rel → Except PErr Rel) : Prop :=
  ∀ r, (∀ s, f r = .ok s → s.klass = r.klass) ∧
    (∀ e, f r = .error e → e = .typeError)

theorem mergeSingStep_stepOk (k : String) (bp : Params) :
    StepOk (mergeSingStep k bp) := by
  intro r
  constructor
  · intro s hs
    rcases mergeSingStep_cases k bp r s hs with rfl | ⟨x, rfl, _⟩
    · rfl
    · rfl
  · intro e he
    exact mergeSingStep_err k bp r e he

theorem mergePlurStep_stepOk (k : String) (bp : Params) :
    StepOk (mergePlurStep k bp) := by
  intro r
  constructor
  · intro s hs
    exact (mergePlurStep_params k bp r s hs).2
  · intro e he
    exact absurd he (by intro hc; exact mergePlurStep_err k bp r e hc)

theorem mergeModStep_stepOk (bp : Params) : StepOk (mergeModStep bp) := by
  intro r
  constructor
  · intro s hs
    exact (mergeModStep_fields bp r s hs).2.2.2.2.2.2.2.2.2.2.2
  · intro e he
    exact mergeModStep_err bp r e he

/-- Binding one `StepOk` computation after another keeps the invariant. -/
theorem chainStep {K : String} {x : Except PErr Rel} {f : Rel → Except PErr Rel}
    (hx1 : ∀ s, x = .ok s → s.klass = K)
    (hx2 : ∀ e, x = .error e → e = .typeError)
    (hf : StepOk f) :
    (∀ s, (x >>= f) = .ok s → s.klass = K) ∧
    (∀ e, (x >>= f) = .error e → e = .typeError) := by
  cases x with
  | ok a =>
      have ha := hx1 a rfl
      constructor
      · intro s hs
        rw [← ha]
        exact (hf a).1 s hs
      · intro e he
        exact (hf a).2 e he
  | error e0 =>
      have he0 := hx2 e0 rfl
      constructor
      · intro s hs
        simp [Bind.bind, Except.bind] at hs
      · intro e he
        simp [Bind.bind, Except.bind] at he
        rw [← he]
        exact he0

theorem stepOk_comp {f g : Rel → Except PErr Rel} (hf : StepOk f)
    (hg : StepOk g) : StepOk (fun r => f r >>= g) := by
  intro r
  exact chainStep (hf r).1 (hf r).2 hg

/-! ### Further merge-step and sanitizer lemmas -/

/-- A falsy singular value is skipped by the merge. -/
theorem mergeSingStep_falsy (k : String) (bp : Params) (r : Rel)
    (hf : (bp.getSing k).truthy = false) : mergeSingStep k bp r = .ok r := by
  unfold mergeSingStep
  simp [hf]

/-- A truthy non-list singular value is passed to the singular clause
method unchanged. -/
theorem mergeSingStep_truthy_nonlist (k : String) (bp : Params) (r : Rel)
    (ht : (bp.getSing k).truthy = true) (hl : (bp.getSing k).isList = false) :
    mergeSingStep k bp r = .ok (singularCall r k (bp.getSing k)) := by
  unfold mergeSingStep
  simp only [ht, if_true]
  cases hv : bp.getSing k with
  | list xs => rw [hv] at hl; simp [PyVal.isList] at hl
  | none => rfl
  | int n => rfl
  | str s => rfl
  | dict es => rfl
  | func f => rfl

/-- Singular merge steps leave every plural param unchanged. -/
theorem mergeSingStep_plur (k : String) (bp : Params) (r s : Rel)
    (h : mergeSingStep k bp r = .ok s) :
    s.params.select = r.params.select ∧ s.params.group = r.params.group ∧
    s.params.order = r.params.order ∧ s.params.joins = r.params.joins ∧
    s.params.includes = r.params.includes ∧ s.params.where_ = r.params.where_ ∧
    s.params.having = r.params.having := by
  rcases mergeSingStep_cases k bp r s h with rfl | ⟨x, rfl, _⟩
  · exact ⟨rfl, rfl, rfl, rfl, rfl, rfl, rfl⟩
  · have hsp := setSing_plural_fields r.params k x
    exact ⟨hsp.1, hsp.2.1, hsp.2.2.1, hsp.2.2.2.1, hsp.2.2.2.2.1,
      hsp.2.2.2.2.2.1, hsp.2.2.2.2.2.2.1⟩

/-- Writing a singular param leaves `offset` alone for other keys. -/
theorem setSing_offset_ne (p : Params) (k : String) (v : PyVal)
    (hk : k ≠ "offset") : (p.setSing k v).offset = p.offset := by
  unfold Params.setSing
  split <;> simp_all

/-- Writing a singular param leaves `from` alone for other keys. -/
theorem setSing_from_ne (p : Params) (k : String) (v : PyVal)
    (hk : k ≠ "from") : (p.setSing k v).from_ = p.from_ := by
  unfold Params.setSing
  split <;> simp_all

/-- Writing a singular param leaves `sql` alone for other keys. -/
theorem setSing_sql_ne (p : Params) (k : String) (v : PyVal)
    (hk : k ≠ "sql") : (p.setSing k v).sql = p.sql := by
  unfold Params.setSing
  split <;> simp_all

/-- Singular merge steps for another key leave `limit` alone. -/
theorem mergeSingStep_limit_ne (k : String) (bp : Params) (r s : Rel)
    (hk : k ≠ "limit") (h : mergeSingStep k bp r = .ok s) :
    s.params.limit = r.params.limit := by
  rcases mergeSingStep_cases k bp r s h with rfl | ⟨x, rfl, _⟩
  · rfl
  · exact setSing_limit_ne r.params k x hk

/-- Singular merge steps for another key leave `offset` alone. -/
theorem mergeSingStep_offset_ne (k : String) (bp : Params) (r s : Rel)
    (hk : k ≠ "offset") (h : mergeSingStep k bp r = .ok s) :
    s.params.offset = r.params.offset := by
  rcases mergeSingStep_cases k bp r s h with rfl | ⟨x, rfl, _⟩
  · rfl
  · exact setSing_offset_ne r.params k x hk

/-- Singular merge steps for another key leave `from` alone. -/
theorem mergeSingStep_from_ne (k : String) (bp : Params) (r s : Rel)
    (hk : k ≠ "from") (h : mergeSingStep k bp r = .ok s) :
    s.params.from_ = r.params.from_ := by
  rcases mergeSingStep_cases k bp r s h with rfl | ⟨x, rfl, _⟩
  · rfl
  · exact setSing_from_ne r.params k x hk

/-- Singular merge steps for another key leave `sql` alone. -/
theorem mergeSingStep_sql_ne (k : String) (bp : Params) (r s : Rel)
    (hk : k ≠ "sql") (h : mergeSingStep k bp r = .ok s) :
    s.params.sql = r.params.sql := by
  rcases mergeSingStep_cases k bp r s h with rfl | ⟨x, rfl, _⟩
  · rfl
  · exact setSing_sql_ne r.params k x hk

/-- Every character surviving the sanitizer lies inside the `[a-zA-z]`
range (ASCII 65–122). -/
theorem sanitizeGo_range :
    ∀ (l : List Char) (b : Bool), ∀ c ∈ sanitizeGo b l, inAtoZRange c = true := by
  intro l
  induction l with
  | nil => intro b c hc; simp [sanitizeGo] at hc
  | cons a rest ih =>
      intro b c hc
      unfold sanitizeGo at hc
      by_cases h1 : (b && isWordChar a) = true
      · simp only [h1, if_true] at hc
        exact ih true c hc
      · simp only [h1, if_false, Bool.false_eq_true] at hc
        by_cases h2 : inAtoZRange a = true
        · simp only [h2, if_true] at hc
          rcases List.mem_cons.mp hc with rfl | hc
          · exact h2
          · exact ih false c hc
        · simp only [h2, if_false, Bool.false_eq_true] at hc
          exact ih true c hc

/-! ## Claims -/

/-- C1: for an already-fetched batch and an includes-tree whose k
top-level names all resolve to (direct) associations and carry no nested
includes (one tree depth), the preload pass issues exactly k additional
fetches, independent of the batch size; an empty batch issues 0. -/
theorem preload_batch_query_bound (fetch : List (String × PyVal) → List PyVal)
    (assocs : List (String × PAssoc)) (mods : PyVal)
    (entries : List (PyVal × PyVal)) (results : List PInst) (count : Nat)
    (_hleaf : ∀ kv ∈ entries, kv.2 = PyVal.dict [])
    (hres : ∀ kv ∈ entries, (resolveEntry assocs kv.1).isSome) :
    (results ≠ [] →
      (preloadCall fetch assocs "read" mods entries results count).1 =
        count + entries.length) ∧
    (preloadCall fetch assocs "read" mods entries [] count).1 = count := by
  constructor
  · intro hne
    have hlen : results.length > 0 := List.length_pos.mpr hne
    unfold preloadCall
    simp only [show (("read" == "read") && decide (results.length > 0)) = true by
      simp [hlen], if_true]
    exact doPreload_count fetch assocs mods entries results count hres
  · unfold preloadCall
    simp

/-- C1 witness: one association name over a two-instance batch issues one
extra fetch, and over the empty batch issues none. -/
theorem preload_batch_query_bound_witness :
    (preloadCall (fun _ => [])
      [("g", { id := "g", kind := "has_many", foreignKey := "m_id",
               primaryKey := "id", klassName := "C" })] "read" (.dict [])
      [(.str "g", .dict [])]
      [{ attrs := [(.str "id", .int 1)] }, { attrs := [(.str "id", .int 2)] }] 0).1 =
      0 + 1 ∧
    (preloadCall (fun _ => [])
      [("g", { id := "g", kind := "has_many", foreignKey := "m_id",
               primaryKey := "id", klassName := "C" })] "read" (.dict [])
      [(.str "g", .dict [])] [] 0).1 = 0 := by
  have h := preload_batch_query_bound (fun _ => [])
    [("g", { id := "g", kind := "has_many", foreignKey := "m_id",
             primaryKey := "id", klassName := "C" })] (.dict [])
    [(.str "g", .dict [])]
    [{ attrs := [(.str "id", .int 1)] }, { attrs := [(.str "id", .int 2)] }] 0
    (by intro kv hkv; rcases List.mem_singleton.mp hkv with rfl; rfl)
    (by intro kv hkv; rcases List.mem_singleton.mp hkv with rfl; rfl)
  exact ⟨h.1 (by simp), h.2⟩

/-- C2 counterexample: calling `all()` twice on the same Relation with
no options issues two fetches, not one — `apply_finder_options` clones
the receiver first, so the record cache lands on a discarded clone. -/
theorem all_twice_fetches_twice :
    (allCall (fun _ => []) (Rel.base "M") []
      ((allCall (fun _ => []) (Rel.base "M") [] 0).2)).2 = 2 ∧ (2 : Nat) ≠ 1 :=
  ⟨rfl, by decide⟩

/-- C2 amended: every `all()` call issues exactly one fetch (two calls
issue two), because `apply_finder_options` returns a cache-empty clone;
the per-instance record cache belongs to `fetch_records` itself — on an
instance with an empty cache, the first `fetch_records` call fetches once
and caches, and a second call on the updated instance returns the cached
list without fetching. -/
theorem all_clones_and_fetchRecords_caches
    (fetch : List (String × PyVal) → List PyVal) (r : Rel)
    (opts : List (PyVal × PyVal)) (count : Nat) :
    (allCall fetch r opts count).2 = count + 1 ∧
    (r.records = Option.none →
      (fetchRecords fetch r count).2.2 = count + 1 ∧
      fetchRecords fetch (fetchRecords fetch r count).2.1
          (fetchRecords fetch r count).2.2 =
        ((fetchRecords fetch r count).1, (fetchRecords fetch r count).2.1,
         (fetchRecords fetch r count).2.2)) := by
  refine ⟨allCall_count fetch r opts count, ?_⟩
  intro hn
  rw [fetchRecords_none hn]
  exact ⟨rfl, rfl⟩

/-- C2 amended witness: on a fresh relation the first `fetch_records`
fetches once and the second returns the cache. -/
theorem all_clones_and_fetchRecords_caches_witness :
    (allCall (fun _ => [.none]) (Rel.base "M") [] 0).2 = 0 + 1 ∧
    ((Rel.base "M").records = Option.none →
      (fetchRecords (fun _ => [.none]) (Rel.base "M") 0).2.2 = 0 + 1 ∧
      fetchRecords (fun _ => [.none])
          (fetchRecords (fun _ => [.none]) (Rel.base "M") 0).2.1
          (fetchRecords (fun _ => [.none]) (Rel.base "M") 0).2.2 =
        ((fetchRecords (fun _ => [.none]) (Rel.base "M") 0).1,
         (fetchRecords (fun _ => [.none]) (Rel.base "M") 0).2.1,
         (fetchRecords (fun _ => [.none]) (Rel.base "M") 0).2.2)) :=
  all_clones_and_fetchRecords_caches (fun _ => [.none]) (Rel.base "M") [] 0

/-- C3: clause calls never change the receiver.  In the aliasing model, a
plural or singular clause call on a well-formed relation leaves every
observable param of the receiver (and hence its computed `query()`)
untouched, and the relation it returns is a new object whose list cells
are disjoint from the receiver's. -/
theorem clause_calls_never_mutate_receiver (h : Heap) (r : RelationH)
    (k : String) (args : List PyVal) (kwargs : List (PyVal × PyVal)) (v : PyVal)
    (wf : wfH h r) :
    paramsOfH (pluralCallH h r k args kwargs).1 r = paramsOfH h r ∧
    queryH (pluralCallH h r k args kwargs).1 r = queryH h r ∧
    paramsOfH (singularCallH h r k v).1 r = paramsOfH h r ∧
    queryH (singularCallH h r k v).1 r = queryH h r ∧
    (∀ kv ∈ ((pluralCallH h r k args kwargs).2).plurAddrs,
      ∀ kv' ∈ r.plurAddrs, kv.2 ≠ kv'.2) := by
  have hp : paramsOfH (pluralCallH h r k args kwargs).1 r = paramsOfH h r :=
    paramsOfH_congr h _ r wf
      (fun a ha => pluralCallH_heap_preserved h r k args kwargs a ha)
  have hs : paramsOfH (singularCallH h r k v).1 r = paramsOfH h r :=
    paramsOfH_congr h _ r wf
      (fun a ha => singularCallH_heap_preserved h r k v a ha)
  refine ⟨hp, by unfold queryH; rw [hp], hs, by unfold queryH; rw [hs], ?_⟩
  intro kv hkv kv' hkv'
  have h1 : (pluralCallH h r k args kwargs).2.plurAddrs =
      (cloneAlloc h r.plurAddrs).2 := by
    unfold pluralCallH cloneH
    rcases hca : cloneAlloc h r.plurAddrs with ⟨h2, ps⟩
    cases hl : lookupStr ps k <;> simp [hl]
  rw [h1] at hkv
  have hge := cloneAlloc_addr_ge r.plurAddrs h kv hkv
  have hlt := wf kv' hkv'
  omega

/-- C3 witness: a concrete well-formed relation with one `where` cell. -/
theorem clause_calls_never_mutate_receiver_witness :
    wfH [[PyVal.str "w"]] ⟨[("limit", .none)], [("where", 0)]⟩ ∧
    (paramsOfH (pluralCallH [[PyVal.str "w"]] ⟨[("limit", .none)], [("where", 0)]⟩
        "where" [.str "v"] []).1 ⟨[("limit", .none)], [("where", 0)]⟩ =
      paramsOfH [[PyVal.str "w"]] ⟨[("limit", .none)], [("where", 0)]⟩ ∧
     queryH (pluralCallH [[PyVal.str "w"]] ⟨[("limit", .none)], [("where", 0)]⟩
        "where" [.str "v"] []).1 ⟨[("limit", .none)], [("where", 0)]⟩ =
      queryH [[PyVal.str "w"]] ⟨[("limit", .none)], [("where", 0)]⟩ ∧
     paramsOfH (singularCallH [[PyVal.str "w"]] ⟨[("limit", .none)], [("where", 0)]⟩
        "limit" (.int 3)).1 ⟨[("limit", .none)], [("where", 0)]⟩ =
      paramsOfH [[PyVal.str "w"]] ⟨[("limit", .none)], [("where", 0)]⟩ ∧
     queryH (singularCallH [[PyVal.str "w"]] ⟨[("limit", .none)], [("where", 0)]⟩
        "limit" (.int 3)).1 ⟨[("limit", .none)], [("where", 0)]⟩ =
      queryH [[PyVal.str "w"]] ⟨[("limit", .none)], [("where", 0)]⟩ ∧
     (∀ kv ∈ ((pluralCallH [[PyVal.str "w"]] ⟨[("limit", .none)], [("where", 0)]⟩
          "where" [.str "v"] []).2).plurAddrs,
       ∀ kv' ∈ ([("where", 0)] : List (String × Nat)), kv.2 ≠ kv'.2)) := by
  have hwf : wfH [[PyVal.str "w"]] ⟨[("limit", .none)], [("where", 0)]⟩ := by
    intro ka hka
    rcases List.mem_singleton.mp hka with rfl
    simp
  exact ⟨hwf, clause_calls_never_mutate_receiver [[PyVal.str "w"]]
    ⟨[("limit", .none)], [("where", 0)]⟩ "where" [.str "v"] [] (.int 3) hwf⟩

/-- C5: evaluation of `HasManyThrough.source_association` at the failing
input.  With associations `comments` and `authors` both defined on the
proxy's related type, a through-association named `comments` declared
with `source='authors'` resolves to the `comments` association (the code
consults `self.id` first), while the documented/specified effective-name
rule resolves to `authors`; with a dangling `source='missing'` option the
code silently falls back to the id-named association instead of raising
`AssociationNotFound`. -/
theorem source_association_prefers_own_id :
    sourceAssociationLookup [("comments", 1), ("authors", 2)] "comments"
      (some "authors") = .ok 1 ∧
    sourceAssociationSpec [("comments", 1), ("authors", 2)] "comments"
      (some "authors") = .ok 2 ∧
    sourceAssociationLookup [("comments", 1)] "comments" (some "missing") = .ok 1 ∧
    sourceAssociationSpec ([("comments", 1)] : List (String × Nat)) "comments"
      (some "missing") = .error .associationNotFound :=
  ⟨rfl, rfl, rfl, rfl⟩

/-- C4 counterexample: a singular field that is set to a falsy value
(`limit 0`) on the argument relation does not overwrite the receiver's —
`merge` only replays truthy values, so the merged relation keeps limit 5
although `b` has its limit field set (to 0). -/
theorem merge_falsy_singular_not_copied :
    mergeRel (singularCall (Rel.base "M") "limit" (.int 5))
        (singularCall (Rel.base "M") "limit" (.int 0)) =
      .ok { klass := "M", params := { limit := .int 5 } } ∧
    (singularCall (Rel.base "M") "limit" (.int 0)).params.limit = .int 0 ∧
    PyVal.int 5 ≠ PyVal.int 0 :=
  ⟨rfl, rfl, by simp⟩

set_option maxHeartbeats 1000000 in
/-- C4 amended: when `a.merge(b)` succeeds, every plural query field of
the result holds `a`'s values followed by `b`'s values in call order,
and every singular query field holds `b`'s value exactly when `b`'s value
is truthy (shown here for non-list values; a falsy value — 0, None, "",
empty containers — leaves `a`'s value in place even though the field is
set). -/
theorem merge_appends_plurals_overwrites_truthy_singulars (a b m : Rel)
    (h : mergeRel a b = .ok m) :
    (m.params.select = a.params.select ++ b.params.select ∧
     m.params.group = a.params.group ++ b.params.group ∧
     m.params.order = a.params.order ++ b.params.order ∧
     m.params.joins = a.params.joins ++ b.params.joins ∧
     m.params.includes = a.params.includes ++ b.params.includes ∧
     m.params.where_ = a.params.where_ ++ b.params.where_ ∧
     m.params.having = a.params.having ++ b.params.having) ∧
    (∀ k ∈ singularQueryMethods,
      ((b.params.getSing k).truthy = false →
        m.params.getSing k = a.params.getSing k) ∧
      ((b.params.getSing k).truthy = true →
        (b.params.getSing k).isList = false →
        m.params.getSing k = b.params.getSing k)) := by
  unfold mergeRel at h
  obtain ⟨r1, e1, h⟩ := exceptBindOk h
  obtain ⟨r2, e2, h⟩ := exceptBindOk h
  obtain ⟨r3, e3, h⟩ := exceptBindOk h
  obtain ⟨r4, e4, h⟩ := exceptBindOk h
  obtain ⟨r5, e5, h⟩ := exceptBindOk h
  obtain ⟨r6, e6, h⟩ := exceptBindOk h
  obtain ⟨r7, e7, h⟩ := exceptBindOk h
  obtain ⟨r8, e8, h⟩ := exceptBindOk h
  obtain ⟨r9, e9, h⟩ := exceptBindOk h
  obtain ⟨r10, e10, h⟩ := exceptBindOk h
  obtain ⟨r11, e11, h⟩ := exceptBindOk h
  have q := mergeModStep_fields b.params r11 m h
  have p5 := (mergePlurStep_params "select" b.params r4 r5 e5).1
  have p6 := (mergePlurStep_params "group" b.params r5 r6 e6).1
  have p7 := (mergePlurStep_params "order" b.params r6 r7 e7).1
  have p8 := (mergePlurStep_params "joins" b.params r7 r8 e8).1
  have p9 := (mergePlurStep_params "includes" b.params r8 r9 e9).1
  have p10 := (mergePlurStep_params "where" b.params r9 r10 e10).1
  have p11 := (mergePlurStep_params "having" b.params r10 r11 e11).1
  have s1p := mergeSingStep_plur "limit" b.params a.clone r1 e1
  have s2p := mergeSingStep_plur "offset" b.params r1 r2 e2
  have s3p := mergeSingStep_plur "from" b.params r2 r3 e3
  have s4p := mergeSingStep_plur "sql" b.params r3 r4 e4
  have chain : ∀ {F : Params → PyVal},
      (∀ (p : Params) (k' : String) (vs : List PyVal), F (p.appendPlur k' vs) = F p) →
      F r11.params = F r4.params := by
    intro F hF
    rw [p11, hF, p10, hF, p9, hF, p8, hF, p7, hF, p6, hF, p5, hF]
  refine ⟨⟨?_, ?_, ?_, ?_, ?_, ?_, ?_⟩, ?_⟩
  · rw [q.2.2.2.2.1, p11, p10, p9, p8, p7, p6, p5]
    show r4.params.select ++ b.params.select = a.params.select ++ b.params.select
    rw [s4p.1, s3p.1, s2p.1, s1p.1]
    rfl
  · rw [q.2.2.2.2.2.1, p11, p10, p9, p8, p7, p6, p5]
    show r4.params.group ++ b.params.group = a.params.group ++ b.params.group
    rw [s4p.2.1, s3p.2.1, s2p.2.1, s1p.2.1]
    rfl
  · rw [q.2.2.2.2.2.2.1, p11, p10, p9, p8, p7, p6, p5]
    show r4.params.order ++ b.params.order = a.params.order ++ b.params.order
    rw [s4p.2.2.1, s3p.2.2.1, s2p.2.2.1, s1p.2.2.1]
    rfl
  · rw [q.2.2.2.2.2.2.2.1, p11, p10, p9, p8, p7, p6, p5]
    show r4.params.joins ++ b.params.joins = a.params.joins ++ b.params.joins
    rw [s4p.2.2.2.1, s3p.2.2.2.1, s2p.2.2.2.1, s1p.2.2.2.1]
    rfl
  · rw [q.2.2.2.2.2.2.2.2.1, p11, p10, p9, p8, p7, p6, p5]
    show r4.params.includes ++ b.params.includes =
      a.params.includes ++ b.params.includes
    rw [s4p.2.2.2.2.1, s3p.2.2.2.2.1, s2p.2.2.2.2.1, s1p.2.2.2.2.1]
    rfl
  · rw [q.2.2.2.2.2.2.2.2.2.1, p11, p10, p9, p8, p7, p6, p5]
    show r4.params.where_ ++ b.params.where_ = a.params.where_ ++ b.params.where_
    rw [s4p.2.2.2.2.2.1, s3p.2.2.2.2.2.1, s2p.2.2.2.2.2.1, s1p.2.2.2.2.2.1]
    rfl
  · rw [q.2.2.2.2.2.2.2.2.2.2.1, p11, p10, p9, p8, p7, p6, p5]
    show r4.params.having ++ b.params.having = a.params.having ++ b.params.having
    rw [s4p.2.2.2.2.2.2, s3p.2.2.2.2.2.2, s2p.2.2.2.2.2.2, s1p.2.2.2.2.2.2]
    rfl
  · intro k hk
    have cl : r11.params.limit = r4.params.limit :=
      chain (fun p k' vs => (appendPlur_sing_fields p k' vs).1)
    have co : r11.params.offset = r4.params.offset :=
      chain (fun p k' vs => (appendPlur_sing_fields p k' vs).2.1)
    have cf : r11.params.from_ = r4.params.from_ :=
      chain (fun p k' vs => (appendPlur_sing_fields p k' vs).2.2.1)
    have cs : r11.params.sql = r4.params.sql :=
      chain (fun p k' vs => (appendPlur_sing_fields p k' vs).2.2.2)
    rcases show k = "limit" ∨ k = "offset" ∨ k = "from" ∨ k = "sql" by
        simpa [singularQueryMethods] using hk with rfl | rfl | rfl | rfl
    · constructor
      · intro hf
        have e1x := mergeSingStep_falsy "limit" b.params a.clone hf
        rw [e1x] at e1
        simp only [Except.ok.injEq] at e1
        show m.params.limit = a.params.limit
        rw [q.1, cl,
          mergeSingStep_limit_ne "sql" b.params r3 r4 (by decide) e4,
          mergeSingStep_limit_ne "from" b.params r2 r3 (by decide) e3,
          mergeSingStep_limit_ne "offset" b.params r1 r2 (by decide) e2, ← e1]
        rfl
      · intro ht hl
        have e1x := mergeSingStep_truthy_nonlist "limit" b.params a.clone ht hl
        rw [e1x] at e1
        simp only [Except.ok.injEq] at e1
        show m.params.limit = b.params.limit
        rw [q.1, cl,
          mergeSingStep_limit_ne "sql" b.params r3 r4 (by decide) e4,
          mergeSingStep_limit_ne "from" b.params r2 r3 (by decide) e3,
          mergeSingStep_limit_ne "offset" b.params r1 r2 (by decide) e2, ← e1]
        rfl
    · constructor
      · intro hf
        have e2x := mergeSingStep_falsy "offset" b.params r1 hf
        rw [e2x] at e2
        simp only [Except.ok.injEq] at e2
        show m.params.offset = a.params.offset
        rw [q.2.1, co,
          mergeSingStep_offset_ne "sql" b.params r3 r4 (by decide) e4,
          mergeSingStep_offset_ne "from" b.params r2 r3 (by decide) e3, ← e2,
          mergeSingStep_offset_ne "limit" b.params a.clone r1 (by decide) e1]
        rfl
      · intro ht hl
        have e2x := mergeSingStep_truthy_nonlist "offset" b.params r1 ht hl
        rw [e2x] at e2
        simp only [Except.ok.injEq] at e2
        show m.params.offset = b.params.offset
        rw [q.2.1, co,
          mergeSingStep_offset_ne "sql" b.params r3 r4 (by decide) e4,
          mergeSingStep_offset_ne "from" b.params r2 r3 (by decide) e3, ← e2]
        rfl
    · constructor
      · intro hf
        have e3x := mergeSingStep_falsy "from" b.params r2 hf
        rw [e3x] at e3
        simp only [Except.ok.injEq] at e3
        show m.params.from_ = a.params.from_
        rw [q.2.2.1, cf,
          mergeSingStep_from_ne "sql" b.params r3 r4 (by decide) e4, ← e3,
          mergeSingStep_from_ne "offset" b.params r1 r2 (by decide) e2,
          mergeSingStep_from_ne "limit" b.params a.clone r1 (by decide) e1]
        rfl
      · intro ht hl
        have e3x := mergeSingStep_truthy_nonlist "from" b.params r2 ht hl
        rw [e3x] at e3
        simp only [Except.ok.injEq] at e3
        show m.params.from_ = b.params.from_
        rw [q.2.2.1, cf,
          mergeSingStep_from_ne "sql" b.params r3 r4 (by decide) e4, ← e3]
        rfl
    · constructor
      · intro hf
        have e4x := mergeSingStep_falsy "sql" b.params r3 hf
        rw [e4x] at e4
        simp only [Except.ok.injEq] at e4
        show m.params.sql = a.params.sql
        rw [q.2.2.2.1, cs, ← e4,
          mergeSingStep_sql_ne "from" b.params r2 r3 (by decide) e3,
          mergeSingStep_sql_ne "offset" b.params r1 r2 (by decide) e2,
          mergeSingStep_sql_ne "limit" b.params a.clone r1 (by decide) e1]
        rfl
      · intro ht hl
        have e4x := mergeSingStep_truthy_nonlist "sql" b.params r3 ht hl
        rw [e4x] at e4
        simp only [Except.ok.injEq] at e4
        show m.params.sql = b.params.sql
        rw [q.2.2.2.1, cs, ← e4]
        rfl

/-- C4 amended witness: merging two one-condition relations appends the
`where` values in call order. -/
theorem merge_appends_plurals_witness :
    mergeRel (pluralCall (Rel.base "M") "where" [.str "x"])
        (pluralCall (Rel.base "M") "where" [.str "y"]) =
      .ok { klass := "M", params := { where_ := [.str "x", .str "y"] } } ∧
    (({ klass := "M", params := { where_ := [.str "x", .str "y"] } } : Rel)).params.where_ =
      (pluralCall (Rel.base "M") "where" [.str "x"]).params.where_ ++
        (pluralCall (Rel.base "M") "where" [.str "y"]).params.where_ :=
  ⟨rfl, (merge_appends_plurals_overwrites_truthy_singulars
    (pluralCall (Rel.base "M") "where" [.str "x"])
    (pluralCall (Rel.base "M") "where" [.str "y"])
    { klass := "M", params := { where_ := [.str "x", .str "y"] } }
    rfl).1.2.2.2.2.2.1⟩

/-- C6 counterexample: with a resolvable association `g` listed before an
unknown name `bad` in the includes tree, the pass raises
`AssociationNotFound` (flag `true`) but the instance in the batch already
has its `g` association cache populated — population is not rolled
back. -/
theorem preload_populates_caches_before_failing :
    (preloadCall (fun _ => [.dict [(.str "m_id", .int 1), (.str "id", .int 7)]])
      [("g", { id := "g", kind := "has_many", foreignKey := "m_id",
               primaryKey := "id", klassName := "C" })]
      "read" (.dict []) [(.str "g", .dict []), (.str "bad", .dict [])]
      [{ attrs := [(.str "id", .int 1)] }] 0).2.2 = true ∧
    (preloadCall (fun _ => [.dict [(.str "m_id", .int 1), (.str "id", .int 7)]])
      [("g", { id := "g", kind := "has_many", foreignKey := "m_id",
               primaryKey := "id", klassName := "C" })]
      "read" (.dict []) [(.str "g", .dict []), (.str "bad", .dict [])]
      [{ attrs := [(.str "id", .int 1)] }] 0).2.1 =
      [{ attrs := [(.str "id", .int 1)],
         cache := [("g", PCache.collection
           [.dict [(.str "m_id", .int 1), (.str "id", .int 7)]])] }] := by
  constructor <;>
    simp [preloadCall, doPreload, resolveEntry, lookupStr, allCall, applyFinderOptions,
      applyOneOption, finderOptionKeys, singularQueryMethods, pluralQueryMethods,
      aliasTarget, dictGet?, pyEq, fetchRecords, Rel.clone, assocScope, pluralCall,
      modifiersCall, Params.appendPlur, addRecordsToScope, matchedRecords, setStr,
      PAssoc.isCollection, instAttr, recAttr, PyVal.truthy, PyVal.entriesOf]

/-- C6 amended: when any top-level name of the includes tree does not
resolve, the preload pass raises `AssociationNotFound` (so the batch is
not returned — the exception propagates out of the processor), but the
association caches populated for the names processed before the failing
one remain on the batch instances: the final instances equal those
produced by preloading the resolvable prefix alone. -/
theorem preload_failure_keeps_prefix_caches
    (fetch : List (String × PyVal) → List PyVal)
    (assocs : List (String × PAssoc)) (mods : PyVal)
    (pre : List (PyVal × PyVal)) (badK sub : PyVal) (post : List (PyVal × PyVal))
    (results : List PInst) (count : Nat)
    (hpre : ∀ kv ∈ pre, (resolveEntry assocs kv.1).isSome)
    (hbad : resolveEntry assocs badK = Option.none)
    (hne : results ≠ []) :
    (preloadCall fetch assocs "read" mods (pre ++ (badK, sub) :: post)
      results count).2.2 = true ∧
    (preloadCall fetch assocs "read" mods (pre ++ (badK, sub) :: post)
      results count).2.1 =
      (doPreload fetch assocs mods pre results count).2.1 := by
  have hcore := doPreload_error_prefix fetch assocs mods pre badK sub post
    results count hpre hbad
  have hlen : results.length > 0 := List.length_pos.mpr hne
  unfold preloadCall
  simp only [show (("read" == "read") && decide (results.length > 0)) = true by
    simp [hlen], if_true]
  rw [hcore]
  exact ⟨rfl, rfl⟩

/-- C6 amended witness: concrete resolvable prefix before a failing
name. -/
theorem preload_failure_keeps_prefix_caches_witness :
    (preloadCall (fun _ => [])
      [("g", { id := "g", kind := "has_many", foreignKey := "m_id",
               primaryKey := "id", klassName := "C" })]
      "read" (.dict []) ([(.str "g", .dict [])] ++ (.str "bad", .dict []) :: [])
      [{ attrs := [(.str "id", .int 1)] }] 0).2.2 = true ∧
    (preloadCall (fun _ => [])
      [("g", { id := "g", kind := "has_many", foreignKey := "m_id",
               primaryKey := "id", klassName := "C" })]
      "read" (.dict []) ([(.str "g", .dict [])] ++ (.str "bad", .dict []) :: [])
      [{ attrs := [(.str "id", .int 1)] }] 0).2.1 =
      (doPreload (fun _ => [])
        [("g", { id := "g", kind := "has_many", foreignKey := "m_id",
                 primaryKey := "id", klassName := "C" })]
        (.dict []) [(.str "g", .dict [])]
        [{ attrs := [(.str "id", .int 1)] }] 0).2.1 :=
  preload_failure_keeps_prefix_caches (fun _ => [])
    [("g", { id := "g", kind := "has_many", foreignKey := "m_id",
             primaryKey := "id", klassName := "C" })]
    (.dict []) [(.str "g", .dict [])] (.str "bad") (.dict []) []
    [{ attrs := [(.str "id", .int 1)] }] 0
    (by intro kv hkv; rcases List.mem_singleton.mp hkv with rfl; rfl)
    rfl (by simp)

/-- C7 counterexample: the sanitizer's character class is `[a-zA-z]`
(lowercase final `z`), which spans ASCII 65–122 and therefore keeps the
underscore: sanitizing `"Ab_cd"` returns it unchanged, so the result is
not alphabetic-only as the claim states. -/
theorem sanitize_keeps_nonalphabetic_chars :
    sanitizeTypeAttribute "Ab_cd" = "Ab_cd" ∧
    '_' ∈ (sanitizeTypeAttribute "Ab_cd").data ∧ '_'.isAlpha = false := by
  refine ⟨?_, ?_, ?_⟩ <;> decide

/-- C7 amended: the sanitizer runs before any registry lookup (the
polymorphic `source_klass` path resolves exactly the namespace-joined
sanitized tag), every character it leaves lies in the ASCII range 65–122
(letters plus `[`, `\`, `]`, `^`, `_`, backtick — not alphabetic-only),
and the lookup raises `ModelNotDefined` when no registered type matches
and `AmbiguousClassName` when more than one matches. -/
theorem polymorphic_tag_sanitized_before_lookup (s : String)
    (registry : List MClass) (ns : Option String) (tag : String) :
    (∀ c ∈ (sanitizeTypeAttribute s).data, 65 ≤ c.toNat ∧ c.toNat ≤ 122) ∧
    sourceKlassPoly registry ns tag =
      getResolvedClass registry (String.intercalate "."
        (((match ns with | some n => [n] | Option.none => []) ++
          [sanitizeTypeAttribute tag]).filter (fun a => a != ""))) ∧
    (resolveName registry tag = [] →
      getResolvedClass registry tag = .error .modelNotDefined) ∧
    (∀ c1 c2 cs, resolveName registry tag = c1 :: c2 :: cs →
      getResolvedClass registry tag = .error .ambiguousClassName) := by
  refine ⟨?_, rfl, ?_, ?_⟩
  · intro c hc
    have hr := sanitizeGo_range s.data false c hc
    simp only [inAtoZRange, Bool.and_eq_true, decide_eq_true_eq] at hr
    exact hr
  · intro h0
    simp [getResolvedClass, h0]
  · intro c1 c2 cs hcs
    simp [getResolvedClass, hcs]

/-- C7 amended witness: the spec's own example sanitizes to `"Foo"`; an
empty registry raises `ModelNotDefined` and two same-named classes raise
`AmbiguousClassName`. -/
theorem polymorphic_tag_sanitized_witness :
    (∀ c ∈ (sanitizeTypeAttribute "Foo.bar; DROP").data,
      65 ≤ c.toNat ∧ c.toNat ≤ 122) ∧
    sanitizeTypeAttribute "Foo.bar; DROP" = "Foo" ∧
    getResolvedClass [] "Tag" = .error .modelNotDefined ∧
    getResolvedClass [⟨"Foo", "a"⟩, ⟨"Foo", "b"⟩] "Foo" =
      .error .ambiguousClassName :=
  ⟨(polymorphic_tag_sanitized_before_lookup "Foo.bar; DROP" [] Option.none "T").1,
   by decide,
   (polymorphic_tag_sanitized_before_lookup "x" [] Option.none "Tag").2.2.1
     (by decide),
   (polymorphic_tag_sanitized_before_lookup "x" [⟨"Foo", "a"⟩, ⟨"Foo", "b"⟩]
     Option.none "Foo").2.2.2 ⟨"Foo", "a"⟩ ⟨"Foo", "b"⟩ [] (by decide)⟩

/-- C8: repeated `includes` calls accumulate their arguments on the
relation, and the combined includes tree deep-merges them: starting from
a relation with no includes, `includes('a')` then `includes({'a': 'b'})`
yields the tree `{'a': {'b': {}}}` — the second call composes with the
first instead of overwriting it. -/
theorem includes_tree_deep_merges (r : Rel) (h : r.params.includes = []) :
    (∀ (r' : Rel) (vs : List PyVal),
      (pluralCall r' "includes" vs []).params.includes =
        r'.params.includes ++ vs) ∧
    includesValue ((pluralCall (pluralCall r "includes" [.str "a"] [])
        "includes" [.dict [(.str "a", .str "b")]] []).params) =
      .dict [(.str "a", .dict [(.str "b", .dict [])])] := by
  constructor
  · intro r' vs
    simp [pluralCall, Rel.clone, Params.appendPlur]
  · have hinc : ((pluralCall (pluralCall r "includes" [.str "a"] [])
        "includes" [.dict [(.str "a", .str "b")]] []).params).includes =
        [.str "a", .dict [(.str "a", .str "b")]] := by
      simp [pluralCall, Rel.clone, Params.appendPlur, h]
    simp [includesValue, hinc, getIncludesValue, givList, givDict, deepMerge,
      deepMergeEntries, dictSet, dictHasKey, dictGet?, pyEq, PyVal.truthy,
      PyVal.isDict, PyVal.entriesOf, PyVal.isCallable, evalLambdas]

/-- C8 witness: the deep-merge example on a fresh relation. -/
theorem includes_tree_deep_merges_witness :
    (Rel.base "M").params.includes = ([] : List PyVal) ∧
    includesValue ((pluralCall (pluralCall (Rel.base "M") "includes"
        [.str "a"] []) "includes" [.dict [(.str "a", .str "b")]] []).params) =
      .dict [(.str "a", .dict [(.str "b", .dict [])])] :=
  ⟨rfl, (includes_tree_deep_merges (Rel.base "M") rfl).2⟩

/-- C9 counterexample: merging Relations over different model types does
not fail with an argument error — it succeeds, returning a Relation for
the receiver's model type with the argument's params merged in. -/
theorem merge_mismatched_types_succeeds :
    mergeRel { klass := "A" } (pluralCall (Rel.base "B") "where" [.str "y"]) =
      .ok { klass := "A", params := { where_ := [.str "y"] } } ∧
    ("A" : String) ≠ "B" :=
  ⟨rfl, by decide⟩

/-- C9 amended: `merge` performs no model-type check at all: for any two
Relations (of equal or different model types) it either succeeds with a
Relation for the receiver's model type, or raises `TypeError` (from the
one-argument clause methods) — never `ArgumentError`. -/
theorem merge_ignores_model_type (a b : Rel) :
    (mergeRel a b).map Rel.klass = .ok a.klass ∨
    mergeRel a b = .error .typeError := by
  have gmod := mergeModStep_stepOk b.params
  have g11 := stepOk_comp (mergePlurStep_stepOk "having" b.params) gmod
  have g10 := stepOk_comp (mergePlurStep_stepOk "where" b.params) g11
  have g9 := stepOk_comp (mergePlurStep_stepOk "includes" b.params) g10
  have g8 := stepOk_comp (mergePlurStep_stepOk "joins" b.params) g9
  have g7 := stepOk_comp (mergePlurStep_stepOk "order" b.params) g8
  have g6 := stepOk_comp (mergePlurStep_stepOk "group" b.params) g7
  have g5 := stepOk_comp (mergePlurStep_stepOk "select" b.params) g6
  have g4 := stepOk_comp (mergeSingStep_stepOk "sql" b.params) g5
  have g3 := stepOk_comp (mergeSingStep_stepOk "from" b.params) g4
  have g2 := stepOk_comp (mergeSingStep_stepOk "offset" b.params) g3
  have hfirst : ∀ s, mergeSingStep "limit" b.params a.clone = .ok s →
      s.klass = a.klass :=
    fun s hs => (mergeSingStep_stepOk "limit" b.params a.clone).1 s hs
  have hook := chainStep hfirst
    (mergeSingStep_stepOk "limit" b.params a.clone).2 g2
  cases hr : mergeRel a b with
  | ok mm =>
      left
      have hk : mm.klass = a.klass := hook.1 mm hr
      simp [Except.map, hk]
  | error e =>
      right
      have he : e = .typeError := hook.2 e hr
      rw [he]

/-- C10: `first` updates the caller's options dict in place with
`limit: 1` before delegating to `all` — after the call the dict (which is
the shared def-time default when the argument was omitted) maps `limit`
to 1, and the relation materialized by `all` has its limit param set to
1. -/
theorem first_sets_limit_in_callers_dict
    (fetch : List (String × PyVal) → List PyVal) (r : Rel)
    (d : List (PyVal × PyVal)) (count : Nat) :
    (firstCall fetch r d count).2.1 = dictSet d (.str "limit") (.int 1) ∧
    dictGet? (firstCall fetch r d count).2.1 (.str "limit") = some (.int 1) ∧
    (applyFinderOptions r (dictSet d (.str "limit") (.int 1))).params.limit =
      .int 1 := by
  refine ⟨rfl, ?_, ?_⟩
  · show dictGet? (dictSet d (.str "limit") (.int 1)) (.str "limit") =
      some (.int 1)
    exact dictGet?_dictSet_self d _ _
  · unfold applyFinderOptions
    show (finderOptionKeys.foldl
      (fun r m => applyOneOption r m (dictSet d (.str "limit") (.int 1)))
      r.clone).params.limit = .int 1
    have hfold : finderOptionKeys = "limit" ::
        ["offset", "from", "sql", "select", "group", "order", "joins",
         "includes", "where", "having", "from_", "conditions", "modifiers"] := rfl
    rw [hfold, List.foldl_cons, foldlApplyOne_limit _ _ _ (by decide)]
    unfold applyOneOption
    rw [dictGet?_dictSet_self]
    simp [PyVal.truthy, aliasTarget, singularQueryMethods, singularCall,
      Rel.clone, Params.setSing]

end Pyperry
